import Mathlib

/-!
Verification of the MCIT program simulation (`mcitSim.py`).

This file shallowly embeds the data model and operations of the simulator:
`Course`, `Policy` (the registration-eligibility resolver), `Student`, and
the `Simulator`'s term-by-term registration loop, and proves the spec's
claims about them.

Modelling conventions:
* Python dicts (insertion-ordered) are association lists `List (String × α)`
  with `lookupA` / `setA` (assignment: update in place keeping position, else
  append) / `eraseA` (`del`).
* Python sets used only for membership (`coursesTaken`) are `Finset String`;
  set differences that the code converts to lists (`set(pre) - taken`) are
  kept as lists in source order (`remainderOf`); Python's set equality test
  is the order-insensitive `setEqL`.  `list(remainderCoReq)[0]` is modelled
  by `List.head?` of that list; in both shipped course graphs the list is a
  singleton whenever the code reaches that point, so the arbitrary iteration
  order of a Python set does not matter.
* Fallible operations (dict `KeyError`, `list(∅)[0]`, and the corrupting
  `options[temp] = options[temp].append(key)` arm of line 152) are modelled
  with `Option`: `none` means the Python program crashes or corrupts its
  `options` dict on that path.
* Randomness (`random.choice`, `random.uniform(0,1) < oneClassOnly`,
  `random.shuffle`) is made explicit: a `Rng` carries a stream of pick
  indices (`random.choice` of a list of length `n` is element `pick % n`;
  every uniform choice is realised by some stream) and a stream of Booleans
  (the outcome of each `uniform(0,1) < oneClassOnly` comparison — this also
  absorbs the `oneClassOnly` probability parameter).  `random.shuffle` at
  term `t` is an oracle `shuf : Nat → List Nat → List Nat`; theorems that
  need it assume the oracle returns a permutation, which is all Python's
  `shuffle` ever does.
* The Python `for studentID in studentIDs` loop with `studentIDs.remove`
  inside is modelled index-accurately (`termLoop` below carries the list
  iterator's internal index), so the element-skipping behaviour of removing
  from a list while iterating it is preserved.
-/

/-- One association-list lookup: Python `d[k]` yields `some v` or a
`KeyError` (`none`). -/
def lookupA {α : Type} : List (String × α) → String → Option α
  | [], _ => none
  | (k', v) :: rest, k => if k' = k then some v else lookupA rest k

/-- Python dict assignment `d[k] = v`: update in place (keeping the key's
position) if present, else append at the end. -/
def setA {α : Type} : List (String × α) → String → α → List (String × α)
  | [], k, v => [(k, v)]
  | (k', v') :: rest, k, v =>
    if k' = k then (k, v) :: rest else (k', v') :: setA rest k v

/-- Python `del d[k]`: remove the (first) entry with key `k`. -/
def eraseA {α : Type} : List (String × α) → String → List (String × α)
  | [], _ => []
  | (k', v') :: rest, k => if k' = k then rest else (k', v') :: eraseA rest k

/-- `Course`: capacity-bounded seat counter (`mcitSim.py` lines 196-206). -/
structure Course where
  id : String
  numEnrolled : Nat
  capacity : Nat
deriving DecidableEq, Repr

/-- `Course.isCourseFull`: `numEnrolled >= capacity`. -/
def Course.isCourseFull (c : Course) : Bool := decide (c.capacity ≤ c.numEnrolled)

/-- `Course.enrollCourse`: unconditional increment. -/
def Course.enrollCourse (c : Course) : Course := { c with numEnrolled := c.numEnrolled + 1 }

/-- `Course.resetEnrollment`: zero the counter. -/
def Course.resetEnrollment (c : Course) : Course := { c with numEnrolled := 0 }

/-- One entry of the course graph: optional prerequisite and corequisite
lists (Python uses `None` or a list). -/
structure Rule where
  pre : Option (List String)
  co : Option (List String)
deriving DecidableEq, Repr

/-- A course graph: the insertion-ordered dict `courseGraph`. -/
abbrev CourseGraph := List (String × Rule)

/-- The `options` dict built by `getCourseOptions`: key course ↦ list of
companion courses unlocked together with it. -/
abbrev Options := List (String × List String)

/-- The course graph installed for policy "no-restrictions"
(`mcitSim.py` lines 99-112). -/
def noRestrictionsGraph : CourseGraph := [
  ("591", ⟨none, none⟩),
  ("592", ⟨none, none⟩),
  ("593", ⟨some ["591"], some ["591"]⟩),
  ("594", ⟨some ["591"], none⟩),
  ("595", ⟨some ["593"], none⟩),
  ("596", ⟨some ["592", "594"], some ["594"]⟩),
  ("515", ⟨none, none⟩),
  ("547", ⟨some ["592", "594", "595"], none⟩),
  ("549", ⟨some ["593", "595"], none⟩),
  ("550", ⟨some ["591", "592", "596"], some ["596"]⟩),
  ("581", ⟨some ["591", "592", "593", "594"], none⟩),
  ("542", ⟨some ["592"], none⟩)]

/-- `coreCourseReq` (`mcitSim.py` line 114): every elective under
"core-first" requires the full core as prerequisite. -/
def coreCourseReq : Rule := ⟨some ["591", "592", "593", "594", "595", "596"], none⟩

/-- The course graph installed for policy "core-first"
(`mcitSim.py` lines 115-128). -/
def coreFirstGraph : CourseGraph := [
  ("591", ⟨none, none⟩),
  ("592", ⟨none, none⟩),
  ("593", ⟨some ["591"], some ["591"]⟩),
  ("594", ⟨some ["591"], none⟩),
  ("595", ⟨some ["593"], none⟩),
  ("596", ⟨some ["592", "594"], some ["594"]⟩),
  ("515", coreCourseReq),
  ("547", coreCourseReq),
  ("549", coreCourseReq),
  ("550", coreCourseReq),
  ("581", coreCourseReq),
  ("542", coreCourseReq)]

/-- `Policy`: a named rule set wrapping one course graph. -/
structure Policy where
  policy : String
  courseGraph : CourseGraph
deriving DecidableEq, Repr

/-- `Policy.listOfPolicies` (`mcitSim.py` line 87). -/
def listOfPolicies : List String := ["no-restrictions", "core-first"]

/-- `Policy.__init__` (`mcitSim.py` lines 89-128): an unrecognized name
raises `ValueError` before any state is produced (`Except.error`); a
recognized name installs the corresponding graph. -/
def Policy.init (policy : String) : Except String Policy :=
  if policy ∈ listOfPolicies then
    if policy = "no-restrictions" then Except.ok ⟨policy, noRestrictionsGraph⟩
    else Except.ok ⟨policy, coreFirstGraph⟩
  else
    Except.error ("policy name " ++ policy ++ " does not match available policy names")

/-- The `Policy` object built by `Policy("no-restrictions")`. -/
def noRestrictionsPolicy : Policy := ⟨"no-restrictions", noRestrictionsGraph⟩

/-- The `Policy` object built by `Policy("core-first")`. -/
def coreFirstPolicy : Policy := ⟨"core-first", coreFirstGraph⟩

/-- `set(l) - coursesTaken`, kept as a list in source order (dedup-free:
the shipped prerequisite/corequisite lists have no duplicates, and only
membership, emptiness and the head are consumed). -/
def remainderOf (coursesTaken : Finset String) (l : List String) : List String :=
  l.filter (fun c => decide (c ∉ coursesTaken))

/-- Python set equality of two code lists (order-insensitive). -/
def setEqL (a b : List String) : Bool :=
  a.all (fun x => decide (x ∈ b)) && b.all (fun x => decide (x ∈ a))

/-- `Policy.passCoReq` (`mcitSim.py` lines 156-162): every outstanding
corequisite must itself have all its prerequisites taken.  A corequisite
code missing from the graph is a Python `KeyError` (`none`). -/
def Policy.passCoReq (p : Policy) (coursesTaken : Finset String) :
    List String → Option Bool
  | [] => some true
  | co :: rest =>
    match lookupA p.courseGraph co with
    | none => none
    | some rule =>
      match rule.pre with
      | none => p.passCoReq coursesTaken rest
      | some coPrereq =>
        if coPrereq.all (fun item => decide (item ∈ coursesTaken)) then
          p.passCoReq coursesTaken rest
        else some false

/-- The body of `Policy.getCourseOptions`'s `for key in self.courseGraph`
loop (`mcitSim.py` lines 135-153), folded over the remaining graph entries.
The three `none` exits model, in order: a `KeyError` inside `passCoReq`;
`list(remainderCoReq)[0]` on an empty set (`IndexError`); and the
`options[temp].append(key)` arm of line 152, which either raises `KeyError`
(`temp` absent) or writes `None` into the dict, corrupting it. -/
def getCourseOptionsAux (p : Policy) (coursesTaken : Finset String) :
    List (String × Rule) → Options → Option Options
  | [], options => some options
  | (key, rule) :: rest, options =>
    if key ∈ coursesTaken then
      getCourseOptionsAux p coursesTaken rest options
    else
      match rule.pre with
      | none =>
        getCourseOptionsAux p coursesTaken rest
          (if (lookupA options key).isSome then options else setA options key [])
      | some prerequisites =>
        if prerequisites.all (fun item => decide (item ∈ coursesTaken)) then
          getCourseOptionsAux p coursesTaken rest
            (if (lookupA options key).isSome then options else setA options key [])
        else
          match rule.co with
          | none => getCourseOptionsAux p coursesTaken rest options
          | some corequisites =>
            let remainderPreReq := remainderOf coursesTaken prerequisites
            let remainderCoReq := remainderOf coursesTaken corequisites
            if setEqL remainderPreReq remainderCoReq = false then
              getCourseOptionsAux p coursesTaken rest options
            else
              match p.passCoReq coursesTaken remainderCoReq with
              | none => none
              | some false => getCourseOptionsAux p coursesTaken rest options
              | some true =>
                match remainderCoReq.head? with
                | none => none
                | some temp =>
                  if (lookupA options key).isSome then none
                  else getCourseOptionsAux p coursesTaken rest (setA options temp [key])

/-- `Policy.getCourseOptions` (`mcitSim.py` lines 130-154). -/
def Policy.getCourseOptions (p : Policy) (coursesTaken : Finset String) : Option Options :=
  getCourseOptionsAux p coursesTaken p.courseGraph []

/-- Explicit randomness: `picks` feeds `random.choice` (choice from a list
of length `n` is element `picks.head % n`), `stops` feeds the
`random.uniform(0,1) < self.oneClassOnly` comparisons.  Theorems quantify
over all streams; the defaults used when a stream runs dry are themselves
possible draws, so every modelled behaviour is a possible Python behaviour
and vice versa. -/
structure Rng where
  picks : List Nat
  stops : List Bool
deriving DecidableEq, Repr

/-- The course catalog `Simulator.courseCatalog`: an insertion-ordered dict
from course code to `Course`. -/
abbrev Catalog := List (String × Course)

/-- `registerTrialsOfCourses[myCourse] = 1 if myCourse not in ... else +1`
(`mcitSim.py` lines 241-243). -/
def trialsBump (trials : List (String × Nat)) (c : String) : List (String × Nat) :=
  match lookupA trials c with
  | none => setA trials c 1
  | some n => setA trials c (n + 1)

/-- The `while (len(selected) < 2 and len(options) >= 1)` loop of
`Student.chooseCourse` (`mcitSim.py` lines 227-243).  The loop terminates
in Python (each iteration deletes a key, and at most two iterations add
keys); the `fuel` argument is a strict upper bound on the number of
iterations supplied by `chooseCourseFuel` below, so the fuel-0 exit is
never taken on the inputs the program produces. -/
def chooseLoop (courseCatalog : Catalog) :
    Nat → Options → List String → List (String × Nat) → Rng →
    Option (List String × List (String × Nat) × Rng)
  | 0, _, selected, trials, rng => some (selected, trials, rng)
  | fuel + 1, options, selected, trials, rng =>
    if selected.length < 2 ∧ 1 ≤ options.length then
      let myCourses := options.map Prod.fst
      let n := (rng.picks.headD 0) % myCourses.length
      let rng1 : Rng := ⟨rng.picks.tail, rng.stops⟩
      let myCourse := myCourses.getD n ""
      match lookupA courseCatalog myCourse with
      | none => none
      | some course =>
        if course.isCourseFull = false then
          match lookupA options myCourse with
          | none => none
          | some companions =>
            let options1 := companions.foldl (fun o c => setA o c []) options
            let options2 := eraseA options1 myCourse
            let selected1 := selected ++ [myCourse]
            let stop := rng1.stops.headD true
            let rng2 : Rng := ⟨rng1.picks, rng1.stops.tail⟩
            if stop then some (selected1, trials, rng2)
            else chooseLoop courseCatalog fuel options2 selected1 trials rng2
        else
          chooseLoop courseCatalog fuel (eraseA options myCourse) selected
            (trialsBump trials myCourse) rng1
    else some (selected, trials, rng)

/-- Iteration bound for `chooseLoop`: at most two successful picks, each
unpacking one companion list (re-added keys carry `[]`), plus one deleting
iteration per key ever present. -/
def chooseCourseFuel (options : Options) : Nat :=
  options.length + (options.map (fun kc => kc.2.length)).sum + 4

/-- `Student` (`mcitSim.py` lines 210-220).  `courseTaken` is a Python set
(`Finset`); the `oneClassOnly` probability is absorbed into the `stops`
stream of `Rng` (each Bool is the outcome of one comparison against it). -/
structure Student where
  id : Nat
  startTime : Nat
  courseTaken : Finset String
  registerTrialsOfCourses : List (String × Nat)
  coursesNotAvailable : Nat
  semesterCount : Nat
  graduated : Bool
deriving DecidableEq

/-- `Student.__init__`. -/
def Student.init (studentId startTime : Nat) : Student :=
  ⟨studentId, startTime, ∅, [], 0, 0, false⟩

/-- The fixed six-course core set of the graduation check
(`mcitSim.py` line 256). -/
def coreSet : Finset String := {"591", "592", "593", "594", "595", "596"}

/-- `Student.updateStudent` (`mcitSim.py` lines 248-258). -/
def Student.updateStudent (s : Student) (courses : List String) : Student :=
  let taken := s.courseTaken ∪ courses.toFinset
  { s with
    semesterCount := s.semesterCount + 1
    courseTaken := taken
    coursesNotAvailable :=
      if courses.length = 0 then s.coursesNotAvailable + 1 else s.coursesNotAvailable
    graduated := if coreSet ⊆ taken ∧ 10 ≤ taken.card then true else s.graduated }

/-- `Student.isGraduated`. -/
def Student.isGraduated (s : Student) : Bool := s.graduated

/-- `Student.chooseCourse` (`mcitSim.py` lines 222-246): ask the resolver,
run the selection loop, then `updateStudent`; returns the updated student,
the selected courses, and the advanced random stream. -/
def Student.chooseCourse (s : Student) (policy : Policy) (courseCatalog : Catalog)
    (rng : Rng) : Option (Student × List String × Rng) :=
  match policy.getCourseOptions s.courseTaken with
  | none => none
  | some options =>
    match chooseLoop courseCatalog (chooseCourseFuel options) options []
        s.registerTrialsOfCourses rng with
    | none => none
    | some (selected, trials, rng') =>
      some (({ s with registerTrialsOfCourses := trials }).updateStudent selected,
        selected, rng')

/-- Core course codes (`Simulator.__init__`, line 37). -/
def coreList : List String := ["591", "592", "593", "594", "595", "596"]

/-- Elective course codes (`Simulator.__init__`, line 38). -/
def electList : List String := ["515", "547", "549", "550", "581", "542"]

/-- `Simulator.__init__`: the course catalog with the given per-category
capacities and all enrollment counters at zero. -/
def mkCatalog (coreCapacity electCapacity : Nat) : Catalog :=
  coreList.map (fun c => (c, ⟨c, 0, coreCapacity⟩)) ++
    electList.map (fun c => (c, ⟨c, 0, electCapacity⟩))

/-- `self.courseCatalog[course].enrollCourse()`: increment the entry, or
`KeyError` (`none`) if the course is not in the catalog. -/
def enrollCatalog : Catalog → String → Option Catalog
  | [], _ => none
  | (k, course) :: rest, c =>
    if k = c then some ((k, course.enrollCourse) :: rest)
    else (enrollCatalog rest c).map (fun r => (k, course) :: r)

/-- The `for course in courses: ... enrollCourse()` loop of `run_sim`
(lines 74-75). -/
def enrollAll (cat : Catalog) : List String → Option Catalog
  | [] => some cat
  | c :: cs =>
    match enrollCatalog cat c with
    | none => none
    | some cat' => enrollAll cat' cs

/-- `Simulator.resetCoursesEnrollment` (lines 45-47). -/
def resetAll (cat : Catalog) : Catalog :=
  cat.map (fun kc => (kc.1, kc.2.resetEnrollment))

/-- The `for studentID in studentIDs` registration loop of `run_sim`
(lines 70-77), with the Python list iterator's internal index `idx` made
explicit: the iterator yields `ids[idx]` and advances `idx` regardless of
the `studentIDs.remove(studentID)` that the body may perform, which is
exactly what makes Python skip the element that slides into the removed
slot. -/
def termLoopAux (policy : Policy) :
    Nat → Nat → List Nat → List Student → Catalog → Rng →
    Option (List Nat × List Student × Catalog × Rng)
  | 0, _, ids, students, catalog, rng => some (ids, students, catalog, rng)
  | gas + 1, idx, ids, students, catalog, rng =>
    if h : idx < ids.length then
      let sid := ids.get ⟨idx, h⟩
      match students[sid]? with
      | none => none
      | some st =>
        match st.chooseCourse policy catalog rng with
        | none => none
        | some (st', selected, rng') =>
          let students' := students.set sid st'
          match enrollAll catalog selected with
          | none => none
          | some catalog' =>
            let ids' := if st'.isGraduated then ids.erase sid else ids
            termLoopAux policy gas (idx + 1) ids' students' catalog' rng'
    else
      some (ids, students, catalog, rng)

/-- Entry point of the registration loop: the iteration count of the
Python loop is bounded by `ids.length - idx` (each iteration advances the
internal index and never lengthens the list), so with that much gas the
gas-0 exit of `termLoopAux` is never taken and the semantics is exact. -/
def termLoop (policy : Policy) (idx : Nat) (ids : List Nat) (students : List Student)
    (catalog : Catalog) (rng : Rng) :
    Option (List Nat × List Student × Catalog × Rng) :=
  termLoopAux policy (ids.length - idx) idx ids students catalog rng

/-- The `for t in range(duration)` loop of `run_sim` (lines 62-79),
recursing on the number of remaining terms.  Alongside the Python state it
accumulates `trace`, the list of catalog states observed after each term's
registration pass and before the between-term reset (the observation
points of the capacity invariant). -/
def runSimAux (policy : Policy) (enrollmentRate : Nat)
    (shuf : Nat → List Nat → List Nat) :
    Nat → Nat → List Nat → List Student → Catalog → Rng → List Catalog →
    Option (List Student × List Catalog)
  | _, 0, _, students, _, _, trace => some (students, trace.reverse)
  | t, remaining + 1, ids, students, catalog, rng, trace =>
    let newIds := List.range' (t * enrollmentRate) enrollmentRate
    let students1 := students ++ newIds.map (fun i => Student.init i 0)
    let ids1 := shuf t (ids ++ newIds)
    match termLoop policy 0 ids1 students1 catalog rng with
    | none => none
    | some (ids', students', catalog', rng') =>
      runSimAux policy enrollmentRate shuf (t + 1) remaining ids' students'
        (resetAll catalog') rng' (catalog' :: trace)

/-- `Simulator.run_sim` (lines 54-80): returns the full student roster
(graduated and active) plus the per-term post-registration catalog trace. -/
def run_sim (policy : Policy) (catalog : Catalog) (enrollmentRate duration : Nat)
    (shuf : Nat → List Nat → List Nat) (rng : Rng) :
    Option (List Student × List Catalog) :=
  runSimAux policy enrollmentRate shuf 0 duration [] [] catalog rng []

/-- Unfolding lemma for `Student.chooseCourse`: a successful call is a
successful resolver call followed by a successful selection loop, and the
returned student is the `updateStudent` of the selection. -/
lemma chooseCourse_eq {s : Student} {p : Policy} {cat : Catalog} {rng : Rng}
    {out : Student × List String × Rng} (h : s.chooseCourse p cat rng = some out) :
    ∃ options selected trials rng',
      p.getCourseOptions s.courseTaken = some options ∧
      chooseLoop cat (chooseCourseFuel options) options [] s.registerTrialsOfCourses rng
        = some (selected, trials, rng') ∧
      out = (({ s with registerTrialsOfCourses := trials }).updateStudent selected,
        selected, rng') := by
  unfold Student.chooseCourse at h
  split at h
  · cases h
  · next options hopt =>
    split at h
    · cases h
    · next selected trials rng' hloop =>
      injection h with h
      exact ⟨options, selected, trials, rng', hopt, hloop, h.symm⟩

/-- Claim C2, counterexample: under "core-first" the resolver on the empty
set does NOT return the six core codes as keys — the core course "594" is
absent (its prerequisite "591" is not yet taken), so the key set is not the
six-course core set. -/
theorem spec_c2_cex :
    "594" ∈ coreList ∧
    "594" ∉ ((coreFirstPolicy.getCourseOptions ∅).getD []).map Prod.fst := by decide

/-- Claim C2, amended: under "core-first", `getCourseOptions ∅` returns
exactly the keys "591" and "592" (the cores with no unmet prerequisite,
"591" carrying companion "593" via the corequisite rule); every key is a
core course and no elective code is present as a key. -/
theorem spec_c2 :
    coreFirstPolicy.getCourseOptions ∅ = some [("591", ["593"]), ("592", [])] ∧
    (((coreFirstPolicy.getCourseOptions ∅).getD []).map Prod.fst).all
      (fun k => decide (k ∈ coreList)) = true ∧
    electList.all
      (fun e => decide (e ∉ ((coreFirstPolicy.getCourseOptions ∅).getD []).map
        Prod.fst)) = true := by
  decide

/-- Claim C4: after `updateStudent`, the graduated flag is true exactly
when it was already true or the post-update `coursesTaken` contains the
six-course core and has at least 10 distinct courses; and no operation
(`chooseCourse` is the only mutator the simulator invokes) ever resets a
true graduated flag to false. -/
theorem spec_c4 :
    (∀ (s : Student) (courses : List String),
      ((s.updateStudent courses).graduated = true ↔
        (s.graduated = true ∨
          (coreSet ⊆ s.courseTaken ∪ courses.toFinset ∧
            10 ≤ (s.courseTaken ∪ courses.toFinset).card)))) ∧
    (∀ (s : Student) (p : Policy) (cat : Catalog) (rng : Rng)
        (out : Student × List String × Rng),
      s.chooseCourse p cat rng = some out → s.graduated = true →
        out.1.graduated = true) := by
  constructor
  · intro s courses
    show (if coreSet ⊆ s.courseTaken ∪ courses.toFinset ∧
        10 ≤ (s.courseTaken ∪ courses.toFinset).card then true else s.graduated) = true ↔ _
    split
    · next hc => simp [hc]
    · next hc => simp [hc]
  · intro s p cat rng out hout hg
    obtain ⟨options, selected, trials, rng', -, -, hout⟩ := chooseCourse_eq hout
    rw [hout]
    show (if _ then true else s.graduated) = true
    split
    · rfl
    · exact hg

/-- A student whose graduated flag is already set, used to witness the
monotonicity half of C4 at a concrete input. -/
def c4Grad : Student := ⟨0, 0, ∅, [], 0, 0, true⟩

/-- Witness for C4: a concrete successful `chooseCourse` call on a
graduated student leaves the flag true. -/
theorem spec_c4_witness :
    c4Grad.chooseCourse noRestrictionsPolicy (mkCatalog 1 1) ⟨[], []⟩ =
      some ((c4Grad.chooseCourse noRestrictionsPolicy (mkCatalog 1 1) ⟨[], []⟩).getD
        (Student.init 0 0, [], ⟨[], []⟩)) ∧
    c4Grad.graduated = true ∧
    ((c4Grad.chooseCourse noRestrictionsPolicy (mkCatalog 1 1) ⟨[], []⟩).getD
        (Student.init 0 0, [], ⟨[], []⟩)).1.graduated = true :=
  ⟨by decide, by decide,
    spec_c4.2 c4Grad noRestrictionsPolicy (mkCatalog 1 1) ⟨[], []⟩
      ((c4Grad.chooseCourse noRestrictionsPolicy (mkCatalog 1 1) ⟨[], []⟩).getD
        (Student.init 0 0, [], ⟨[], []⟩)) (by decide) (by decide)⟩

/-- Claim C5: under "no-restrictions" with nothing taken, "591" is a
directly selectable key whose companion list is exactly `["593"]` (and the
whole mapping is `{"591": ["593"], "592": [], "515": []}`). -/
theorem spec_c5 :
    lookupA ((noRestrictionsPolicy.getCourseOptions ∅).getD []) "591" = some ["593"] ∧
    noRestrictionsPolicy.getCourseOptions ∅ =
      some [("591", ["593"]), ("592", []), ("515", [])] := by decide

/-- Claim C6: under "no-restrictions", `getCourseOptions {"591"}` has keys
including "593", "594" and "592" and excluding "595" and "596". -/
theorem spec_c6 :
    "593" ∈ ((noRestrictionsPolicy.getCourseOptions {"591"}).getD []).map Prod.fst ∧
    "594" ∈ ((noRestrictionsPolicy.getCourseOptions {"591"}).getD []).map Prod.fst ∧
    "592" ∈ ((noRestrictionsPolicy.getCourseOptions {"591"}).getD []).map Prod.fst ∧
    "595" ∉ ((noRestrictionsPolicy.getCourseOptions {"591"}).getD []).map Prod.fst ∧
    "596" ∉ ((noRestrictionsPolicy.getCourseOptions {"591"}).getD []).map Prod.fst := by
  decide

/-- Claim C8: `Policy.__init__` succeeds exactly on the two recognized
policy names and raises (producing no policy object, hence no course graph
and no runnable simulation) on every other name. -/
theorem spec_c8 (s : String) :
    (Policy.init s).toOption.isSome = true ↔ s = "no-restrictions" ∨ s = "core-first" := by
  by_cases h1 : s = "no-restrictions" <;> by_cases h2 : s = "core-first" <;>
    simp [Policy.init, listOfPolicies, h1, h2, Except.toOption]

/-- The pre-graduation student used to exhibit the roster-iteration bug of
`run_sim`: after five terms it holds the nine distinct courses
591-595, 515, 547, 549, 542 — one course ("596") short of graduating. -/
def c3Student0 : Student :=
  ⟨0, 0, {"591", "592", "593", "594", "595", "515", "547", "549", "542"}, [], 0, 5, false⟩

/-- Claim C3 fails on the code: in a registration pass over the roster
`[0, 1]` where student 0 graduates (it picks "596", its tenth course),
`studentIDs.remove(studentID)` inside the `for studentID in studentIDs`
loop shifts the list under the live iterator, so student 1 — active and
not graduated — is never invoked this term: the pass completes, student 0
ends graduated, and student 1 is untouched (`semesterCount` still 0
instead of 1). -/
theorem spec_c3 :
    ((termLoop noRestrictionsPolicy 0 [0, 1] [c3Student0, Student.init 1 0]
        (mkCatalog 350 50) ⟨[0], [true]⟩).map
      (fun out =>
        (((out.2.1).getD 0 (Student.init 7 7)).graduated,
         ((out.2.1).getD 1 (Student.init 7 7)).graduated,
         ((out.2.1).getD 1 (Student.init 7 7)).semesterCount))).getD
      (false, true, 7) = (true, false, 0) := by decide

/-- Membership in a dict after assignment: an entry is an old entry or the
assigned one. -/
lemma mem_setA {α : Type} {kc : String × α} :
    ∀ {l : List (String × α)} {k : String} {v : α},
      kc ∈ setA l k v → kc ∈ l ∨ kc = (k, v)
  | [], k, v => by simp [setA]
  | (k', v') :: rest, k, v => by
    simp only [setA]
    split
    · intro h
      rcases List.mem_cons.mp h with h | h
      · exact Or.inr h
      · exact Or.inl (List.mem_cons_of_mem _ h)
    · intro h
      rcases List.mem_cons.mp h with h | h
      · exact Or.inl (h ▸ List.mem_cons_self _ _)
      · rcases mem_setA h with h | h
        · exact Or.inl (List.mem_cons_of_mem _ h)
        · exact Or.inr h

/-- Membership after deletion implies membership before. -/
lemma mem_eraseA {α : Type} {kc : String × α} :
    ∀ {l : List (String × α)} {k : String}, kc ∈ eraseA l k → kc ∈ l
  | [], k => by simp [eraseA]
  | (k', v') :: rest, k => by
    simp only [eraseA]
    split
    · exact fun h => List.mem_cons_of_mem _ h
    · intro h
      rcases List.mem_cons.mp h with h | h
      · exact h ▸ List.mem_cons_self _ _
      · exact List.mem_cons_of_mem _ (mem_eraseA h)

/-- A successful dict lookup exhibits a matching entry. -/
lemma lookupA_mem {α : Type} :
    ∀ {l : List (String × α)} {k : String} {v : α},
      lookupA l k = some v → (k, v) ∈ l
  | [], k, v => by simp [lookupA]
  | (k', v') :: rest, k, v => by
    simp only [lookupA]
    split
    · next heq =>
      intro h
      injection h with h
      subst heq h
      exact List.mem_cons_self _ _
    · exact fun h => List.mem_cons_of_mem _ (lookupA_mem h)

/-- `List.getD` at an in-range index is a member. -/
lemma getD_mem : ∀ (l : List String) (n : Nat), n < l.length → ∀ d, l.getD n d ∈ l
  | a :: t, 0, _, d => by simp [List.getD]
  | a :: t, n + 1, h, d => by
    simp only [List.getD_cons_succ]
    exact List.mem_cons_of_mem _ (getD_mem t n (by simpa using h) d)

/-- The head of a list is a member. -/
lemma head?_mem {a : String} : ∀ {l : List String}, l.head? = some a → a ∈ l
  | [], h => by cases h
  | b :: t, h => by
    injection h with h
    exact h ▸ List.mem_cons_self _ _

/-- Members of `set(l) - taken` are not taken. -/
lemma mem_remainderOf {taken : Finset String} {l : List String} {c : String}
    (h : c ∈ remainderOf taken l) : c ∉ taken := by
  have := (List.mem_filter.mp h).2
  exact of_decide_eq_true this

/-- Invariant of the `getCourseOptions` fold: if every accumulated entry
has an untaken key and untaken companions, so does every entry of the
result — directly added keys pass the `key in coursesTaken` skip, and a
corequisite key comes from `set(co) - coursesTaken`. -/
lemma getCourseOptionsAux_notTaken {p : Policy} {taken : Finset String} :
    ∀ (rest : List (String × Rule)) (o o' : Options),
      getCourseOptionsAux p taken rest o = some o' →
      (∀ kc ∈ o, kc.1 ∉ taken ∧ ∀ c ∈ kc.2, c ∉ taken) →
      ∀ kc ∈ o', kc.1 ∉ taken ∧ ∀ c ∈ kc.2, c ∉ taken
  | [], o, o' => by
    intro h ho
    unfold getCourseOptionsAux at h
    injection h with h
    exact h ▸ ho
  | (key, rule) :: rest, o, o' => by
    intro h ho
    unfold getCourseOptionsAux at h
    split at h
    · exact getCourseOptionsAux_notTaken rest o o' h ho
    · next hkey =>
      split at h
      · refine getCourseOptionsAux_notTaken rest _ o' h ?_
        split
        · exact ho
        · intro kc hkc
          rcases mem_setA hkc with hkc | hkc
          · exact ho kc hkc
          · subst hkc
            exact ⟨hkey, by simp⟩
      · split at h
        · refine getCourseOptionsAux_notTaken rest _ o' h ?_
          split
          · exact ho
          · intro kc hkc
            rcases mem_setA hkc with hkc | hkc
            · exact ho kc hkc
            · subst hkc
              exact ⟨hkey, by simp⟩
        · split at h
          · exact getCourseOptionsAux_notTaken rest o o' h ho
          · dsimp only at h
            split at h
            · exact getCourseOptionsAux_notTaken rest o o' h ho
            · split at h
              · exact absurd h (by simp)
              · exact getCourseOptionsAux_notTaken rest o o' h ho
              · split at h
                · exact absurd h (by simp)
                · next temp htemp =>
                  split at h
                  · exact absurd h (by simp)
                  · refine getCourseOptionsAux_notTaken rest _ o' h ?_
                    intro kc hkc
                    rcases mem_setA hkc with hkc | hkc
                    · exact ho kc hkc
                    · subst hkc
                      refine ⟨mem_remainderOf (head?_mem htemp), ?_⟩
                      intro c hc
                      rcases List.mem_singleton.mp hc with rfl
                      exact hkey

/-- Unpacking companion courses into `options` (each with an empty
companion list) preserves the untaken invariant. -/
lemma foldl_setA_notTaken {taken : Finset String} :
    ∀ (cs : List String) (o : Options),
      (∀ kc ∈ o, kc.1 ∉ taken ∧ ∀ c ∈ kc.2, c ∉ taken) →
      (∀ c ∈ cs, c ∉ taken) →
      ∀ kc ∈ cs.foldl (fun o c => setA o c []) o, kc.1 ∉ taken ∧ ∀ c ∈ kc.2, c ∉ taken
  | [], o => fun ho _ => ho
  | c :: cs, o => by
    intro ho hcs
    simp only [List.foldl_cons]
    refine foldl_setA_notTaken cs _ ?_ (fun x hx => hcs x (List.mem_cons_of_mem _ hx))
    intro kc hkc
    rcases mem_setA hkc with hkc | hkc
    · exact ho kc hkc
    · subst hkc
      exact ⟨hcs c (List.mem_cons_self _ _), by simp⟩

/-- The selection loop only ever selects untaken courses, assuming all
option keys and companions are untaken. -/
lemma chooseLoop_notTaken {cat : Catalog} {taken : Finset String} :
    ∀ (fuel : Nat) (opts : Options) (sel : List String) (trials : List (String × Nat))
      (rng : Rng) (out : List String × List (String × Nat) × Rng),
      chooseLoop cat fuel opts sel trials rng = some out →
      (∀ kc ∈ opts, kc.1 ∉ taken ∧ ∀ c ∈ kc.2, c ∉ taken) →
      (∀ c ∈ sel, c ∉ taken) →
      ∀ c ∈ out.1, c ∉ taken
  | 0, opts, sel, trials, rng, out => by
    intro h hopts hsel
    unfold chooseLoop at h
    injection h with h
    rw [← h]
    exact hsel
  | fuel + 1, opts, sel, trials, rng, out => by
    intro h hopts hsel
    unfold chooseLoop at h
    split at h
    · next hguard =>
      dsimp only at h
      have hlen : 0 < (opts.map Prod.fst).length := by
        simp only [List.length_map]
        omega
      have hmem : (opts.map Prod.fst).getD ((rng.picks.headD 0) % (opts.map Prod.fst).length) "" ∈
          opts.map Prod.fst :=
        getD_mem _ _ (Nat.mod_lt _ hlen) _
      rcases List.mem_map.mp hmem with ⟨kc, hkc, hkceq⟩
      have hmyNot : (opts.map Prod.fst).getD ((rng.picks.headD 0) % (opts.map Prod.fst).length) "" ∉
          taken := hkceq ▸ (hopts kc hkc).1
      split at h
      · cases h
      · next course hcourse =>
        split at h
        · split at h
          · cases h
          · next companions hcomp =>
            split at h
            · injection h with h
              rw [← h]
              intro c hc
              rcases List.mem_append.mp hc with hc | hc
              · exact hsel c hc
              · rcases List.mem_singleton.mp hc with rfl
                exact hmyNot
            · refine chooseLoop_notTaken fuel _ _ _ _ out h ?_ ?_
              · intro kc' hkc'
                refine foldl_setA_notTaken companions opts hopts ?_ kc' (mem_eraseA hkc')
                exact (hopts _ (lookupA_mem hcomp)).2
              · intro c hc
                rcases List.mem_append.mp hc with hc | hc
                · exact hsel c hc
                · rcases List.mem_singleton.mp hc with rfl
                  exact hmyNot
        · refine chooseLoop_notTaken fuel _ _ _ _ out h ?_ hsel
          intro kc' hkc'
          exact hopts kc' (mem_eraseA hkc')
    · injection h with h
      rw [← h]
      exact hsel

/-- Claim C9: every key of the resolver's mapping (directly eligible or an
outstanding corequisite) and every companion-list entry is absent from
`coursesTaken`; consequently `chooseCourse` only selects courses the
student has not already completed. -/
theorem spec_c9 :
    (∀ (p : Policy) (taken : Finset String) (opts : Options),
      p.getCourseOptions taken = some opts →
      ∀ kc ∈ opts, kc.1 ∉ taken ∧ ∀ c ∈ kc.2, c ∉ taken) ∧
    (∀ (s : Student) (p : Policy) (cat : Catalog) (rng : Rng)
        (out : Student × List String × Rng),
      s.chooseCourse p cat rng = some out → ∀ c ∈ out.2.1, c ∉ s.courseTaken) := by
  constructor
  · intro p taken opts h
    exact getCourseOptionsAux_notTaken p.courseGraph [] opts h (by simp)
  · intro s p cat rng out hout
    obtain ⟨options, selected, trials, rng', hopt, hloop, hout⟩ := chooseCourse_eq hout
    have hinv := getCourseOptionsAux_notTaken p.courseGraph [] options hopt
      (by simp)
    have hsel := chooseLoop_notTaken _ _ _ _ _ _ hloop hinv (by simp)
    rw [hout]
    simpa using hsel

/-- Witness for C9: a concrete resolver result and a concrete
`chooseCourse` selection, with the theorem applied at both. -/
theorem spec_c9_witness :
    noRestrictionsPolicy.getCourseOptions {"591"} =
      some [("592", []), ("593", []), ("594", []), ("515", [])] ∧
    ("592" : String) ∉ ({"591"} : Finset String) ∧
    (Student.init 0 0).chooseCourse noRestrictionsPolicy (mkCatalog 5 5) ⟨[0], [true]⟩ =
      some (((Student.init 0 0).chooseCourse noRestrictionsPolicy (mkCatalog 5 5)
        ⟨[0], [true]⟩).getD (Student.init 0 0, [], ⟨[], []⟩)) ∧
    ("591" : String) ∉ (Student.init 0 0).courseTaken :=
  ⟨by decide,
   (spec_c9.1 noRestrictionsPolicy {"591"} [("592", []), ("593", []), ("594", []), ("515", [])]
      (by decide) ("592", []) (by decide)).1,
   by decide,
   spec_c9.2 (Student.init 0 0) noRestrictionsPolicy (mkCatalog 5 5) ⟨[0], [true]⟩
     (((Student.init 0 0).chooseCourse noRestrictionsPolicy (mkCatalog 5 5)
        ⟨[0], [true]⟩).getD (Student.init 0 0, [], ⟨[], []⟩)) (by decide) "591" (by decide)⟩

/-- Keys of the graph entries that can reach the hazardous corequisite
branch of `getCourseOptions` (both a prerequisite and a corequisite list
present). -/
def dangerKeys (rest : List (String × Rule)) : List String :=
  (rest.filter (fun kr => kr.2.pre.isSome && kr.2.co.isSome)).map Prod.fst

/-- Static well-formedness of a graph suffix, checked by evaluation: no
entry's key or corequisite code collides with a hazardous key that is
processed later, and every corequisite code is itself a graph key.  This
is what keeps the `key in options` test of line 152 false whenever the
corequisite branch succeeds. -/
def stepOKB (g : CourseGraph) : List (String × Rule) → Bool
  | [] => true
  | (k, r) :: rest =>
    (decide (k ∉ dangerKeys rest) &&
      (r.co.getD []).all (fun c => decide (c ∉ dangerKeys rest) && (lookupA g c).isSome)) &&
    stepOKB g rest

/-- Assigning one key leaves lookups of other keys unchanged. -/
lemma lookupA_setA_ne {α : Type} {k k' : String} (hne : k' ≠ k) :
    ∀ (l : List (String × α)) (v : α), lookupA (setA l k v) k' = lookupA l k'
  | [], v => by
    simp [setA, lookupA, Ne.symm hne]
  | (a, b) :: rest, v => by
    simp only [setA]
    split
    · next heq =>
      subst heq
      simp [lookupA, Ne.symm hne]
    · simp only [lookupA]
      split
      · rfl
      · exact lookupA_setA_ne hne rest v

/-- Hazardous keys of a suffix are hazardous keys of the longer suffix. -/
lemma mem_dangerKeys_cons {k : String} {r : Rule} {rest : List (String × Rule)} {dk : String}
    (h : dk ∈ dangerKeys rest) : dk ∈ dangerKeys ((k, r) :: rest) := by
  simp only [dangerKeys, List.filter_cons]
  split
  · simp only [List.map_cons]
    exact List.mem_cons_of_mem _ (by simpa [dangerKeys] using h)
  · simpa [dangerKeys] using h

/-- An entry with both lists present is itself hazardous. -/
lemma self_mem_dangerKeys {k : String} {r : Rule} {rest : List (String × Rule)}
    {pres cos : List String} (hpre : r.pre = some pres) (hco : r.co = some cos) :
    k ∈ dangerKeys ((k, r) :: rest) := by
  simp [dangerKeys, List.filter_cons, hpre, hco]

/-- `passCoReq` cannot raise provided every outstanding corequisite is a
graph key. -/
lemma passCoReq_isSome {p : Policy} (taken : Finset String) :
    ∀ (rem : List String), (∀ c ∈ rem, (lookupA p.courseGraph c).isSome = true) →
      (p.passCoReq taken rem).isSome = true
  | [] => by
    intro
    simp [Policy.passCoReq]
  | co :: rest => by
    intro hall
    unfold Policy.passCoReq
    split
    · next hco =>
      exact absurd (hall co (List.mem_cons_self _ _)) (by simp [hco])
    · split
      · exact passCoReq_isSome taken rest (fun c hc => hall c (List.mem_cons_of_mem _ hc))
      · split
        · exact passCoReq_isSome taken rest
            (fun c hc => hall c (List.mem_cons_of_mem _ hc))
        · simp

/-- If not all prerequisites are taken, the remaining-prerequisite list is
nonempty. -/
lemma remainder_ne_nil {taken : Finset String} {pres : List String}
    (h : ¬(pres.all (fun item => decide (item ∈ taken)) = true)) :
    remainderOf taken pres ≠ [] := by
  simp only [List.all_eq_true, not_forall] at h
  obtain ⟨x, hx, hxt⟩ := h
  intro hnil
  have hmem : x ∈ remainderOf taken pres :=
    List.mem_filter.mpr ⟨hx, by simpa using hxt⟩
  rw [hnil] at hmem
  cases hmem

/-- Python set equality gives mutual containment. -/
lemma setEqL_subset {a b : List String} (h : setEqL a b = true) : ∀ x ∈ a, x ∈ b := by
  simp only [setEqL, Bool.and_eq_true, List.all_eq_true] at h
  intro x hx
  exact of_decide_eq_true (h.1 x hx)

/-- Totality of the `getCourseOptions` fold on a well-formed graph suffix:
on the corequisite success branch the outstanding-corequisite list is
nonempty (it equals the nonempty remaining-prerequisite list as a set), so
`list(remainderCoReq)[0]` never fails, and the current key is never
already an `options` key, so line 152 takes its safe arm. -/
lemma getCourseOptionsAux_isSome {p : Policy} {taken : Finset String} :
    ∀ (rest : List (String × Rule)) (o : Options),
      stepOKB p.courseGraph rest = true →
      (∀ dk ∈ dangerKeys rest, lookupA o dk = none) →
      (getCourseOptionsAux p taken rest o).isSome = true
  | [], o => by
    intro _ _
    simp [getCourseOptionsAux]
  | (key, rule) :: rest, o => by
    intro hok hdn
    simp only [stepOKB, Bool.and_eq_true] at hok
    obtain ⟨⟨hknd, hcos⟩, hokrest⟩ := hok
    have hkeyNotDanger : key ∉ dangerKeys rest := of_decide_eq_true hknd
    unfold getCourseOptionsAux
    split
    · exact getCourseOptionsAux_isSome rest o hokrest
        (fun dk hdk => hdn dk (mem_dangerKeys_cons hdk))
    · next hkey =>
      split
      · -- pre = none
        split
        · exact getCourseOptionsAux_isSome rest o hokrest
            (fun dk hdk => hdn dk (mem_dangerKeys_cons hdk))
        · refine getCourseOptionsAux_isSome rest _ hokrest ?_
          intro dk hdk
          have hne : dk ≠ key := fun he => hkeyNotDanger (he ▸ hdk)
          rw [lookupA_setA_ne hne]
          exact hdn dk (mem_dangerKeys_cons hdk)
      · next prerequisites hpre =>
        split
        · split
          · exact getCourseOptionsAux_isSome rest o hokrest
              (fun dk hdk => hdn dk (mem_dangerKeys_cons hdk))
          · refine getCourseOptionsAux_isSome rest _ hokrest ?_
            intro dk hdk
            have hne : dk ≠ key := fun he => hkeyNotDanger (he ▸ hdk)
            rw [lookupA_setA_ne hne]
            exact hdn dk (mem_dangerKeys_cons hdk)
        · next hnall =>
          split
          · exact getCourseOptionsAux_isSome rest o hokrest
              (fun dk hdk => hdn dk (mem_dangerKeys_cons hdk))
          · next corequisites hco =>
            dsimp only
            rw [hco] at hcos
            simp only [Option.getD_some, List.all_eq_true, Bool.and_eq_true] at hcos
            split
            · exact getCourseOptionsAux_isSome rest o hokrest
                (fun dk hdk => hdn dk (mem_dangerKeys_cons hdk))
            · next hseq =>
              have hseq' : setEqL (remainderOf taken prerequisites)
                  (remainderOf taken corequisites) = true := by
                cases hsq : setEqL (remainderOf taken prerequisites)
                    (remainderOf taken corequisites)
                · exact absurd hsq hseq
                · rfl
              have hlook : ∀ c ∈ remainderOf taken corequisites,
                  (lookupA p.courseGraph c).isSome = true := by
                intro c hc
                exact (hcos c (List.mem_of_mem_filter hc)).2
              split
              · next hpcr =>
                exact absurd (passCoReq_isSome taken _ hlook) (by simp [hpcr])
              · exact getCourseOptionsAux_isSome rest o hokrest
                  (fun dk hdk => hdn dk (mem_dangerKeys_cons hdk))
              · split
                · next hhd =>
                  -- head? = none contradicts nonemptiness of the remainder
                  have hpne : remainderOf taken prerequisites ≠ [] := remainder_ne_nil hnall
                  have hcne : remainderOf taken corequisites ≠ [] := by
                    rcases hrp : remainderOf taken prerequisites with _ | ⟨x, xs⟩
                    · exact absurd hrp hpne
                    · intro hnil
                      have : x ∈ remainderOf taken corequisites :=
                        setEqL_subset hseq' x (hrp ▸ List.mem_cons_self _ _)
                      rw [hnil] at this
                      cases this
                  rcases hrc : remainderOf taken corequisites with _ | ⟨a, t⟩
                  · exact absurd hrc hcne
                  · rw [hrc] at hhd
                    cases hhd
                · next temp htemp =>
                  split
                  · next hlk =>
                    have := hdn key (self_mem_dangerKeys hpre hco)
                    rw [this] at hlk
                    cases hlk
                  · refine getCourseOptionsAux_isSome rest _ hokrest ?_
                    intro dk hdk
                    have htempco : temp ∈ corequisites :=
                      List.mem_of_mem_filter (head?_mem htemp)
                    have htempnd : temp ∉ dangerKeys rest :=
                      of_decide_eq_true (hcos temp htempco).1
                    have hne : dk ≠ temp := fun he => htempnd (he ▸ hdk)
                    rw [lookupA_setA_ne hne]
                    exact hdn dk (mem_dangerKeys_cons hdk)

/-- Claim C10: over both shipped policy graphs the resolver is total — for
every `coursesTaken` set it returns a mapping (`isSome`): the corequisite
branch always finds a nonempty outstanding-corequisite set whose first
element exists, and never hits the crashing/corrupting arm of line 152. -/
theorem spec_c10 (taken : Finset String) :
    (noRestrictionsPolicy.getCourseOptions taken).isSome = true ∧
    (coreFirstPolicy.getCourseOptions taken).isSome = true :=
  ⟨getCourseOptionsAux_isSome noRestrictionsPolicy.courseGraph [] (by decide)
      (fun dk _ => rfl),
   getCourseOptionsAux_isSome coreFirstPolicy.courseGraph [] (by decide)
      (fun dk _ => rfl)⟩

/-- A key not among the dict's keys looks up to `none`. -/
lemma lookupA_eq_none {α : Type} :
    ∀ {l : List (String × α)} {k : String}, k ∉ l.map Prod.fst → lookupA l k = none
  | [], k => fun _ => rfl
  | (k', v') :: rest, k => by
    intro h
    simp only [List.map_cons, List.mem_cons, not_or] at h
    simp only [lookupA]
    rw [if_neg (fun he => h.1 he.symm)]
    exact lookupA_eq_none h.2

/-- A key among the dict's keys looks up successfully. -/
lemma lookupA_isSome_of_mem {α : Type} :
    ∀ {l : List (String × α)} {k : String}, k ∈ l.map Prod.fst →
      (lookupA l k).isSome = true
  | [], k => by simp
  | (k', v') :: rest, k => by
    intro h
    simp only [lookupA]
    split
    · rfl
    · next hne =>
      refine lookupA_isSome_of_mem ?_
      simp only [List.map_cons, List.mem_cons] at h
      rcases h with h | h
      · exact absurd h.symm hne
      · exact h

/-- Keys after assignment are old keys or the assigned key. -/
lemma keys_setA_mem {α : Type} {x : String} :
    ∀ {l : List (String × α)} {k : String} {v : α},
      x ∈ (setA l k v).map Prod.fst → x ∈ l.map Prod.fst ∨ x = k := by
  intro l k v h
  rcases List.mem_map.mp h with ⟨kc, hkc, rfl⟩
  rcases mem_setA hkc with hkc | hkc
  · exact Or.inl (List.mem_map_of_mem _ hkc)
  · exact Or.inr (by rw [hkc])

/-- Dict assignment preserves key uniqueness. -/
lemma keysNodup_setA {α : Type} :
    ∀ {l : List (String × α)} {k : String} {v : α},
      (l.map Prod.fst).Nodup → ((setA l k v).map Prod.fst).Nodup
  | [], k, v => by simp [setA]
  | (k', v') :: rest, k, v => by
    intro h
    simp only [List.map_cons, List.nodup_cons] at h
    simp only [setA]
    split
    · next heq =>
      subst heq
      simp only [List.map_cons, List.nodup_cons]
      exact h
    · next hne =>
      simp only [List.map_cons, List.nodup_cons]
      refine ⟨?_, keysNodup_setA h.2⟩
      intro hmem
      rcases keys_setA_mem hmem with hmem | hmem
      · exact h.1 hmem
      · exact hne hmem

/-- Keys after deletion were keys before. -/
lemma keys_eraseA_mem {α : Type} {x : String} {l : List (String × α)} {k : String}
    (h : x ∈ (eraseA l k).map Prod.fst) : x ∈ l.map Prod.fst := by
  rcases List.mem_map.mp h with ⟨kc, hkc, rfl⟩
  exact List.mem_map_of_mem _ (mem_eraseA hkc)

/-- Dict deletion preserves key uniqueness. -/
lemma keysNodup_eraseA {α : Type} :
    ∀ {l : List (String × α)} {k : String},
      (l.map Prod.fst).Nodup → ((eraseA l k).map Prod.fst).Nodup
  | [], k => by simp [eraseA]
  | (k', v') :: rest, k => by
    intro h
    simp only [List.map_cons, List.nodup_cons] at h
    simp only [eraseA]
    split
    · exact h.2
    · simp only [List.map_cons, List.nodup_cons]
      exact ⟨fun hmem => h.1 (keys_eraseA_mem hmem), keysNodup_eraseA h.2⟩

/-- After deleting a key from a dict with unique keys, it is gone. -/
lemma lookupA_eraseA_self {α : Type} :
    ∀ {l : List (String × α)} {k : String},
      (l.map Prod.fst).Nodup → lookupA (eraseA l k) k = none
  | [], k => fun _ => rfl
  | (k', v') :: rest, k => by
    intro h
    simp only [List.map_cons, List.nodup_cons] at h
    simp only [eraseA]
    split
    · next heq =>
      subst heq
      exact lookupA_eq_none h.1
    · next hne =>
      simp only [lookupA]
      rw [if_neg hne]
      exact lookupA_eraseA_self h.2

/-- A key that was absent stays absent after a deletion. -/
lemma lookupA_eraseA_none {α : Type} :
    ∀ {l : List (String × α)} {k c : String},
      lookupA l c = none → lookupA (eraseA l k) c = none
  | [], k, c => fun _ => rfl
  | (k', v') :: rest, k, c => by
    intro h
    simp only [lookupA] at h
    by_cases hkc : k' = c
    · rw [if_pos hkc] at h
      cases h
    · rw [if_neg hkc] at h
      simp only [eraseA]
      split
      · exact h
      · simp only [lookupA]
        rw [if_neg hkc]
        exact lookupA_eraseA_none h

/-- Companion unpacking preserves key uniqueness. -/
lemma keysNodup_foldl_setA :
    ∀ (cs : List String) (o : Options),
      (o.map Prod.fst).Nodup →
      ((cs.foldl (fun o c => setA o c []) o).map Prod.fst).Nodup
  | [], o => fun h => h
  | c :: cs, o => by
    intro h
    simp only [List.foldl_cons]
    exact keysNodup_foldl_setA cs _ (keysNodup_setA h)

/-- The resolver's fold keeps `options` keys unique (it is a Python
dict). -/
lemma getCourseOptionsAux_keysNodup {p : Policy} {taken : Finset String} :
    ∀ (rest : List (String × Rule)) (o o' : Options),
      getCourseOptionsAux p taken rest o = some o' →
      (o.map Prod.fst).Nodup → (o'.map Prod.fst).Nodup
  | [], o, o' => by
    intro h ho
    unfold getCourseOptionsAux at h
    injection h with h
    exact h ▸ ho
  | (key, rule) :: rest, o, o' => by
    intro h ho
    unfold getCourseOptionsAux at h
    split at h
    · exact getCourseOptionsAux_keysNodup rest o o' h ho
    · split at h
      · refine getCourseOptionsAux_keysNodup rest _ o' h ?_
        split
        · exact ho
        · exact keysNodup_setA ho
      · split at h
        · refine getCourseOptionsAux_keysNodup rest _ o' h ?_
          split
          · exact ho
          · exact keysNodup_setA ho
        · split at h
          · exact getCourseOptionsAux_keysNodup rest o o' h ho
          · dsimp only at h
            split at h
            · exact getCourseOptionsAux_keysNodup rest o o' h ho
            · split at h
              · exact absurd h (by simp)
              · exact getCourseOptionsAux_keysNodup rest o o' h ho
              · split at h
                · exact absurd h (by simp)
                · split at h
                  · exact absurd h (by simp)
                  · exact getCourseOptionsAux_keysNodup rest _ o' h (keysNodup_setA ho)

/-- Soundness of the selection loop for the capacity argument: the
returned selection has no duplicates, holds at most two courses, and each
selected course was seen not-full against the catalog, which the loop
never mutates.  Duplicates are impossible because a course re-added as a
companion can only be picked again after a second successful pick, and two
successful picks already end the loop. -/
lemma chooseLoop_sound {cat : Catalog} :
    ∀ (fuel : Nat) (opts : Options) (sel : List String) (trials : List (String × Nat))
      (rng : Rng) (out : List String × List (String × Nat) × Rng),
      chooseLoop cat fuel opts sel trials rng = some out →
      (opts.map Prod.fst).Nodup →
      sel.Nodup →
      sel.length ≤ 2 →
      (sel.length < 2 → ∀ c ∈ sel, lookupA opts c = none) →
      (∀ c ∈ sel, ∃ crs, lookupA cat c = some crs ∧ crs.isCourseFull = false) →
      out.1.Nodup ∧ out.1.length ≤ 2 ∧
        (∀ c ∈ out.1, ∃ crs, lookupA cat c = some crs ∧ crs.isCourseFull = false)
  | 0, opts, sel, trials, rng, out => by
    intro h _ hnd hlen _ hcat
    unfold chooseLoop at h
    injection h with h
    rw [← h]
    exact ⟨hnd, hlen, hcat⟩
  | fuel + 1, opts, sel, trials, rng, out => by
    intro h hknd hnd hlen hdisj hcat
    unfold chooseLoop at h
    split at h
    · next hguard =>
      dsimp only at h
      have hlen2 : sel.length < 2 := hguard.1
      have hkmem : (opts.map Prod.fst).getD ((rng.picks.headD 0) % (opts.map Prod.fst).length) ""
          ∈ opts.map Prod.fst := by
        refine getD_mem _ _ (Nat.mod_lt _ ?_) _
        simp only [List.length_map]
        omega
      have hmyNotSel : (opts.map Prod.fst).getD
          ((rng.picks.headD 0) % (opts.map Prod.fst).length) "" ∉ sel := by
        intro hin
        have hnone := hdisj hlen2 _ hin
        have hsome := lookupA_isSome_of_mem hkmem
        rw [hnone] at hsome
        cases hsome
      split at h
      · cases h
      · next course hcourse =>
        split at h
        · next hfull =>
          split at h
          · cases h
          · next companions hcomp =>
            split at h
            · -- stop: return sel ++ [myCourse]
              injection h with h
              rw [← h]
              refine ⟨List.Nodup.append hnd (List.nodup_singleton _)
                  (by simpa using hmyNotSel), ?_, ?_⟩
              · simp only [List.length_append, List.length_singleton]
                omega
              · intro c hc
                rcases List.mem_append.mp hc with hc | hc
                · exact hcat c hc
                · rcases List.mem_singleton.mp hc with rfl
                  exact ⟨course, hcourse, hfull⟩
            · -- continue
              refine chooseLoop_sound fuel _ _ _ _ out h ?_ ?_ ?_ ?_ ?_
              · exact keysNodup_eraseA (keysNodup_foldl_setA companions opts hknd)
              · exact List.Nodup.append hnd (List.nodup_singleton _)
                  (by simpa using hmyNotSel)
              · simp only [List.length_append, List.length_singleton]
                omega
              · intro hlt c hc
                have hsel0 : sel = [] := by
                  cases sel with
                  | nil => rfl
                  | cons a t =>
                    exfalso
                    simp only [List.length_append, List.length_singleton,
                      List.length_cons] at hlt
                    omega
                subst hsel0
                simp only [List.nil_append] at hc
                rcases List.mem_singleton.mp hc with rfl
                exact lookupA_eraseA_self (keysNodup_foldl_setA companions opts hknd)
              · intro c hc
                rcases List.mem_append.mp hc with hc | hc
                · exact hcat c hc
                · rcases List.mem_singleton.mp hc with rfl
                  exact ⟨course, hcourse, hfull⟩
        · -- full: discard the option
          refine chooseLoop_sound fuel _ _ _ _ out h
            (keysNodup_eraseA hknd) hnd hlen ?_ hcat
          intro hlt c hc
          exact lookupA_eraseA_none (hdisj hlt c hc)
    · injection h with h
      rw [← h]
      exact ⟨hnd, hlen, hcat⟩

/-- The capacity invariant: every catalog entry has enrollment at most
capacity. -/
def CatInv (cat : Catalog) : Prop :=
  ∀ kc ∈ cat, kc.2.numEnrolled ≤ kc.2.capacity

/-- Enrolling one course leaves the other courses' entries unchanged. -/
lemma enrollCatalog_lookup_ne :
    ∀ {cat cat' : Catalog} {c k : String},
      enrollCatalog cat c = some cat' → k ≠ c → lookupA cat' k = lookupA cat k
  | [], cat', c, k => by
    intro h
    cases h
  | (k0, course) :: rest, cat', c, k => by
    intro h hne
    simp only [enrollCatalog] at h
    split at h
    · next heq =>
      injection h with h
      rw [← h]
      simp only [lookupA]
      rw [if_neg (fun he => hne (he.symm.trans heq)),
        if_neg (fun he => hne (he.symm.trans heq))]
    · next hne0 =>
      cases hrec : enrollCatalog rest c with
      | none =>
        rw [hrec] at h
        cases h
      | some cat'' =>
        rw [hrec] at h
        injection h with h
        rw [← h]
        simp only [lookupA]
        split
        · rfl
        · exact enrollCatalog_lookup_ne hrec hne

/-- Enrolling a course that was looked up not-full preserves the capacity
invariant. -/
lemma enrollCatalog_inv :
    ∀ {cat cat' : Catalog} {c : String},
      enrollCatalog cat c = some cat' →
      (∃ crs, lookupA cat c = some crs ∧ crs.isCourseFull = false) →
      CatInv cat → CatInv cat'
  | [], cat', c => by
    intro h
    cases h
  | (k0, course) :: rest, cat', c => by
    intro h hex hinv
    simp only [enrollCatalog] at h
    obtain ⟨crs, hcrs, hfull⟩ := hex
    split at h
    · next heq =>
      injection h with h
      subst heq
      simp only [lookupA, if_pos rfl] at hcrs
      injection hcrs with hcrs
      subst hcrs
      intro kc hkc
      rw [← h] at hkc
      rcases List.mem_cons.mp hkc with hkc | hkc
      · subst hkc
        simp only [Course.enrollCourse]
        have : ¬ (course.capacity ≤ course.numEnrolled) := by
          simpa [Course.isCourseFull] using hfull
        omega
      · exact hinv _ (List.mem_cons_of_mem _ hkc)
    · next hne0 =>
      cases hrec : enrollCatalog rest c with
      | none =>
        rw [hrec] at h
        cases h
      | some cat'' =>
        rw [hrec] at h
        injection h with h
        simp only [lookupA] at hcrs
        rw [if_neg hne0] at hcrs
        have hinvrest : CatInv cat'' :=
          enrollCatalog_inv hrec ⟨crs, hcrs, hfull⟩
            (fun kc hkc => hinv _ (List.mem_cons_of_mem _ hkc))
        intro kc hkc
        rw [← h] at hkc
        rcases List.mem_cons.mp hkc with hkc | hkc
        · subst hkc
          exact hinv _ (List.mem_cons_self _ _)
        · exact hinvrest _ hkc

/-- Enrolling a duplicate-free list of courses, each not-full in the
pre-enrollment catalog, preserves the capacity invariant. -/
lemma enrollAll_inv :
    ∀ (cs : List String) (cat cat' : Catalog),
      enrollAll cat cs = some cat' → cs.Nodup →
      (∀ c ∈ cs, ∃ crs, lookupA cat c = some crs ∧ crs.isCourseFull = false) →
      CatInv cat → CatInv cat'
  | [], cat, cat' => by
    intro h _ _ hinv
    unfold enrollAll at h
    injection h with h
    exact h ▸ hinv
  | c :: cs, cat, cat' => by
    intro h hnd hex hinv
    unfold enrollAll at h
    split at h
    · cases h
    · next cat1 henr =>
      simp only [List.nodup_cons] at hnd
      refine enrollAll_inv cs cat1 cat' h hnd.2 ?_
        (enrollCatalog_inv henr (hex c (List.mem_cons_self _ _)) hinv)
      intro c' hc'
      have hne : c' ≠ c := fun he => hnd.1 (he ▸ hc')
      rw [enrollCatalog_lookup_ne henr hne]
      exact hex c' (List.mem_cons_of_mem _ hc')

/-- `chooseCourse` returns a duplicate-free selection of at most two
courses, each checked not-full against the current catalog. -/
lemma chooseCourse_sound {s : Student} {p : Policy} {cat : Catalog} {rng : Rng}
    {out : Student × List String × Rng} (h : s.chooseCourse p cat rng = some out) :
    out.2.1.Nodup ∧ out.2.1.length ≤ 2 ∧
      (∀ c ∈ out.2.1, ∃ crs, lookupA cat c = some crs ∧ crs.isCourseFull = false) := by
  obtain ⟨options, selected, trials, rng', hopt, hloop, hout⟩ := chooseCourse_eq h
  have hknd : (options.map Prod.fst).Nodup :=
    getCourseOptionsAux_keysNodup p.courseGraph [] options hopt (by simp)
  have := chooseLoop_sound _ _ _ _ _ _ hloop hknd List.nodup_nil (by simp)
    (by intro _ c hc; cases hc) (by intro c hc; cases hc)
  rw [hout]
  exact this

/-- One registration pass preserves the capacity invariant: each student's
selection is enrolled only after the not-full checks, sequentially. -/
lemma termLoopAux_catInv {policy : Policy} :
    ∀ (gas idx : Nat) (ids : List Nat) (students : List Student) (cat : Catalog)
      (rng : Rng) (out : List Nat × List Student × Catalog × Rng),
      termLoopAux policy gas idx ids students cat rng = some out →
      CatInv cat → CatInv out.2.2.1
  | 0, idx, ids, students, cat, rng, out => by
    intro h hinv
    unfold termLoopAux at h
    injection h with h
    rw [← h]
    exact hinv
  | gas + 1, idx, ids, students, cat, rng, out => by
    intro h hinv
    unfold termLoopAux at h
    split at h
    · dsimp only at h
      split at h
      · cases h
      · next st hst =>
        split at h
        · cases h
        · next st' selected rng' hcc =>
          split at h
          · cases h
          · next cat' henr =>
            have hsound := chooseCourse_sound hcc
            refine termLoopAux_catInv gas _ _ _ _ _ out h ?_
            exact enrollAll_inv selected cat cat' henr hsound.1 hsound.2.2 hinv
    · injection h with h
      rw [← h]
      exact hinv

/-- The between-term reset trivially satisfies the capacity invariant. -/
lemma resetAll_inv (cat : Catalog) : CatInv (resetAll cat) := by
  intro kc hkc
  rcases List.mem_map.mp hkc with ⟨kc0, _, rfl⟩
  simp [Course.resetEnrollment]

/-- Every observation point recorded in the trace (after a term's
registration pass, before the reset) satisfies the capacity invariant. -/
lemma runSimAux_trace_inv {policy : Policy} {rate : Nat}
    {shuf : Nat → List Nat → List Nat} :
    ∀ (remaining t : Nat) (ids : List Nat) (students : List Student) (cat : Catalog)
      (rng : Rng) (trace : List Catalog) (out : List Student × List Catalog),
      runSimAux policy rate shuf t remaining ids students cat rng trace = some out →
      CatInv cat → (∀ c ∈ trace, CatInv c) →
      ∀ c ∈ out.2, CatInv c
  | 0, t, ids, students, cat, rng, trace, out => by
    intro h _ htr
    unfold runSimAux at h
    injection h with h
    rw [← h]
    intro c hc
    exact htr c (List.mem_reverse.mp hc)
  | remaining + 1, t, ids, students, cat, rng, trace, out => by
    intro h hinv htr
    unfold runSimAux at h
    dsimp only at h
    split at h
    · cases h
    · next ids' students' cat' rng' hterm =>
      have hcat' : CatInv cat' :=
        termLoopAux_catInv _ _ _ _ _ _ _ hterm hinv
      refine runSimAux_trace_inv remaining (t + 1) _ _ _ _ _ out h
        (resetAll_inv cat') ?_
      intro c hc
      rcases List.mem_cons.mp hc with hc | hc
      · exact hc ▸ hcat'
      · exact htr c hc

/-- The freshly built catalog satisfies the capacity invariant. -/
lemma mkCatalog_inv (coreCapacity electCapacity : Nat) :
    CatInv (mkCatalog coreCapacity electCapacity) := by
  intro kc hkc
  rcases List.mem_append.mp hkc with h | h <;>
    rcases List.mem_map.mp h with ⟨c, _, rfl⟩ <;> exact Nat.zero_le _

/-- Claim C1: for every run of the simulation (any policy, capacities,
enrollment rate, duration, shuffle oracle and random streams), at every
observation point after a term's registration pass and before the
between-term reset, every course's enrollment is at most its capacity: the
sequential check-then-enroll discipline never overshoots. -/
theorem spec_c1 (p : Policy) (coreCapacity electCapacity rate duration : Nat)
    (shuf : Nat → List Nat → List Nat) (rng : Rng)
    (out : List Student × List Catalog)
    (h : run_sim p (mkCatalog coreCapacity electCapacity) rate duration shuf rng = some out) :
    ∀ cat ∈ out.2, ∀ kc ∈ cat, kc.2.numEnrolled ≤ kc.2.capacity := by
  intro cat hcat
  exact runSimAux_trace_inv duration 0 [] [] _ rng [] out h
    (mkCatalog_inv coreCapacity electCapacity) (by intro c hc; cases hc) cat hcat

/-- Dropping one more element keeps membership. -/
lemma drop_succ_subset {x : Nat} {t : List Nat} {m : Nat} (h : x ∈ t.drop (m + 1)) :
    x ∈ t.drop m := by
  have : t.drop (m + 1) = (t.drop m).drop 1 := by
    rw [List.drop_drop]
  rw [this] at h
  exact List.drop_subset _ _ h

/-- Members of the `idx`-suffix of a list with one element erased were
members of the `idx`-suffix before the erasure. -/
lemma mem_drop_erase :
    ∀ (l : List Nat) (a : Nat) (n : Nat) (x : Nat),
      x ∈ (l.erase a).drop n → x ∈ l.drop n
  | [], a, n, x => by simp [List.erase_nil]
  | b :: t, a, 0, x => by
    intro h
    exact List.mem_of_mem_erase h
  | b :: t, a, n + 1, x => by
    intro h
    rw [List.erase_cons] at h
    split at h
    · exact drop_succ_subset h
    · simp only [List.drop_succ_cons] at h ⊢
      exact mem_drop_erase t a n x h

/-- The suffix from an in-range position starts with that element. -/
lemma drop_eq_get_cons :
    ∀ (l : List Nat) (n : Nat) (h : n < l.length),
      l.drop n = l.get ⟨n, h⟩ :: l.drop (n + 1)
  | a :: t, 0, h => rfl
  | a :: t, n + 1, h => by
    simp only [List.drop_succ_cons]
    exact drop_eq_get_cons t n (by simpa using h)

/-- `updateStudent` adds one semester, at most `courses.length` new
courses, and sets `graduated` only when the ten-course threshold is
reached. -/
lemma updateStudent_bounds (s : Student) (courses : List String) :
    (s.updateStudent courses).semesterCount = s.semesterCount + 1 ∧
    (s.updateStudent courses).courseTaken.card ≤ s.courseTaken.card + courses.length ∧
    ((s.updateStudent courses).graduated = true →
      s.graduated = true ∨ 10 ≤ (s.updateStudent courses).courseTaken.card) := by
  refine ⟨rfl, ?_, ?_⟩
  · have h1 : (s.courseTaken ∪ courses.toFinset).card ≤
        s.courseTaken.card + courses.toFinset.card := Finset.card_union_le _ _
    have h2 := List.toFinset_card_le courses
    show (s.courseTaken ∪ courses.toFinset).card ≤ s.courseTaken.card + courses.length
    omega
  · show (if coreSet ⊆ s.courseTaken ∪ courses.toFinset ∧
        10 ≤ (s.courseTaken ∪ courses.toFinset).card then true else s.graduated) = true → _
    split
    · next hc => exact fun _ => Or.inr hc.2
    · exact fun hg => Or.inl hg

/-- One `chooseCourse` call adds one semester, at most two courses, and
can set `graduated` only at ten or more distinct courses. -/
lemma chooseCourse_step {s : Student} {p : Policy} {cat : Catalog} {rng : Rng}
    {out : Student × List String × Rng} (h : s.chooseCourse p cat rng = some out) :
    out.1.semesterCount = s.semesterCount + 1 ∧
    out.1.courseTaken.card ≤ s.courseTaken.card + 2 ∧
    (out.1.graduated = true → s.graduated = true ∨ 10 ≤ out.1.courseTaken.card) := by
  have hsound := chooseCourse_sound h
  obtain ⟨options, selected, trials, rng', hopt, hloop, hout⟩ := chooseCourse_eq h
  subst hout
  dsimp only at hsound ⊢
  have hb := updateStudent_bounds ({ s with registerTrialsOfCourses := trials }) selected
  dsimp only at hb
  refine ⟨hb.1, ?_, hb.2.2⟩
  have h2 : selected.length ≤ 2 := hsound.2.1
  have h3 := hb.2.1
  omega

/-- A student id that does not occur in the unprocessed suffix of the
roster is untouched by the rest of the registration pass — including ids
that the iterator skips when a graduated student is removed from the list
mid-iteration. -/
lemma termLoopAux_untouched {policy : Policy} :
    ∀ (gas idx : Nat) (ids : List Nat) (students : List Student) (cat : Catalog)
      (rng : Rng) (out : List Nat × List Student × Catalog × Rng),
      termLoopAux policy gas idx ids students cat rng = some out →
      ∀ sid, sid ∉ ids.drop idx → out.2.1[sid]? = students[sid]?
  | 0, idx, ids, students, cat, rng, out => by
    intro h sid _
    unfold termLoopAux at h
    injection h with h
    rw [← h]
  | gas + 1, idx, ids, students, cat, rng, out => by
    intro h sid hsid
    unfold termLoopAux at h
    split at h
    · next hlt =>
      dsimp only at h
      split at h
      · cases h
      · next st hst =>
        split at h
        · cases h
        · next st' selected rng' hcc =>
          split at h
          · cases h
          · next cat' henr =>
            have hvmem : ids.get ⟨idx, hlt⟩ ∈ ids.drop idx := by
              rw [drop_eq_get_cons ids idx hlt]
              exact List.mem_cons_self _ _
            have hne : sid ≠ ids.get ⟨idx, hlt⟩ := fun he => hsid (he ▸ hvmem)
            have hnotdrop : sid ∉ ids.drop (idx + 1) := fun hmem => hsid (by
              rw [drop_eq_get_cons ids idx hlt]
              exact List.mem_cons_of_mem _ hmem)
            have hids' : sid ∉ (if st'.isGraduated then ids.erase (ids.get ⟨idx, hlt⟩)
                else ids).drop (idx + 1) := by
              split
              · exact fun hmem => hnotdrop (mem_drop_erase _ _ _ _ hmem)
              · exact hnotdrop
            rw [termLoopAux_untouched gas (idx + 1) _ _ _ _ out h sid hids']
            exact List.getElem?_set_ne (Ne.symm hne)
    · injection h with h
      rw [← h]

/-- The registration pass only removes ids from the roster and preserves
its duplicate-freedom. -/
lemma termLoopAux_ids {policy : Policy} :
    ∀ (gas idx : Nat) (ids : List Nat) (students : List Student) (cat : Catalog)
      (rng : Rng) (out : List Nat × List Student × Catalog × Rng),
      termLoopAux policy gas idx ids students cat rng = some out →
      (∀ i ∈ out.1, i ∈ ids) ∧ (ids.Nodup → out.1.Nodup)
  | 0, idx, ids, students, cat, rng, out => by
    intro h
    unfold termLoopAux at h
    injection h with h
    rw [← h]
    exact ⟨fun i hi => hi, fun hn => hn⟩
  | gas + 1, idx, ids, students, cat, rng, out => by
    intro h
    unfold termLoopAux at h
    split at h
    · next hlt =>
      dsimp only at h
      split at h
      · cases h
      · split at h
        · cases h
        · next st' selected rng' hcc =>
          split at h
          · cases h
          · have hrec := termLoopAux_ids gas (idx + 1) _ _ _ _ out h
            constructor
            · intro i hi
              have := hrec.1 i hi
              split at this
              · exact List.mem_of_mem_erase this
              · exact this
            · intro hnd
              refine hrec.2 ?_
              split
              · exact List.Nodup.erase _ hnd
              · exact hnd
    · injection h with h
      rw [← h]
      exact ⟨fun i hi => hi, fun hn => hn⟩

/-- Per-student effect of one registration pass over a duplicate-free
roster: each student is either untouched or updated by exactly one
`chooseCourse` call (a graduated-and-removed student's id cannot recur,
and the skip bug only leaves more students untouched). -/
lemma termLoopAux_student_bound {policy : Policy} :
    ∀ (gas idx : Nat) (ids : List Nat) (students : List Student) (cat : Catalog)
      (rng : Rng) (out : List Nat × List Student × Catalog × Rng),
      termLoopAux policy gas idx ids students cat rng = some out →
      ids.Nodup →
      ∀ (sid : Nat) (st' : Student), out.2.1[sid]? = some st' →
        ∃ st, students[sid]? = some st ∧
          (st' = st ∨
            (st'.semesterCount = st.semesterCount + 1 ∧
             st'.courseTaken.card ≤ st.courseTaken.card + 2 ∧
             (st'.graduated = true → st.graduated = true ∨ 10 ≤ st'.courseTaken.card)))
  | 0, idx, ids, students, cat, rng, out => by
    intro h _ sid st' hsid
    unfold termLoopAux at h
    injection h with h
    rw [← h] at hsid
    exact ⟨st', hsid, Or.inl rfl⟩
  | gas + 1, idx, ids, students, cat, rng, out => by
    intro h hnd sid st' hsid
    unfold termLoopAux at h
    split at h
    · next hlt =>
      dsimp only at h
      split at h
      · cases h
      · next st0 hst0 =>
        split at h
        · cases h
        · next stv selected rng' hcc =>
          split at h
          · cases h
          · next cat' henr =>
            by_cases hv : sid = ids.get ⟨idx, hlt⟩
            · subst hv
              have hnot : ids.get ⟨idx, hlt⟩ ∉
                  (if stv.isGraduated then ids.erase (ids.get ⟨idx, hlt⟩)
                    else ids).drop (idx + 1) := by
                split
                · intro hmem
                  have hmem2 := List.drop_subset _ _ hmem
                  exact ((List.Nodup.mem_erase_iff hnd).mp hmem2).1 rfl
                · have hdnd : (ids.drop idx).Nodup :=
                    List.Nodup.sublist (List.drop_sublist idx ids) hnd
                  rw [drop_eq_get_cons ids idx hlt] at hdnd
                  exact (List.nodup_cons.mp hdnd).1
              have huntouched := termLoopAux_untouched gas (idx + 1) _ _ _ _ out h _ hnot
              rw [huntouched] at hsid
              have hlen : ids.get ⟨idx, hlt⟩ < students.length := by
                rcases List.getElem?_eq_some.mp hst0 with ⟨hl, _⟩
                exact hl
              rw [List.getElem?_set_self hlen] at hsid
              injection hsid with hsid
              refine ⟨st0, hst0, Or.inr ?_⟩
              rw [← hsid]
              exact chooseCourse_step hcc
            · have hrec := termLoopAux_student_bound gas (idx + 1) _ _ _ _ out h ?hnd sid st' hsid
              case hnd =>
                split
                · exact List.Nodup.erase _ hnd
                · exact hnd
              obtain ⟨st, hst, hrel⟩ := hrec
              rw [List.getElem?_set_ne (fun he => hv he.symm)] at hst
              exact ⟨st, hst, hrel⟩
    · injection h with h
      rw [← h] at hsid
      exact ⟨st', hsid, Or.inl rfl⟩

/-- Roster invariant for the no-graduation argument: nobody has graduated,
everybody's distinct-course count is at most twice their semester count,
and semester counts are bounded by the number of elapsed terms. -/
def rosterOK (bound : Nat) (students : List Student) : Prop :=
  ∀ (sid : Nat) (st : Student), students[sid]? = some st →
    st.graduated = false ∧ st.courseTaken.card ≤ 2 * st.semesterCount ∧
    st.semesterCount ≤ bound

/-- If at most four terms remain in total, nobody ever graduates: each
term updates each student at most once, each update adds at most two
courses, so no student reaches the ten distinct courses the graduation
check requires. -/
lemma runSimAux_ungraduated {policy : Policy} {rate : Nat}
    {shuf : Nat → List Nat → List Nat} (hshuf : ∀ t l, (shuf t l).Perm l) :
    ∀ (remaining t bound : Nat) (ids : List Nat) (students : List Student)
      (cat : Catalog) (rng : Rng) (trace : List Catalog)
      (out : List Student × List Catalog),
      runSimAux policy rate shuf t remaining ids students cat rng trace = some out →
      bound + remaining ≤ 4 →
      ids.Nodup → (∀ i ∈ ids, i < t * rate) →
      rosterOK bound students →
      ∀ st ∈ out.1, st.graduated = false
  | 0, t, bound, ids, students, cat, rng, trace, out => by
    intro h _ _ _ hOK st hst
    unfold runSimAux at h
    injection h with h
    rw [← h] at hst
    obtain ⟨n, hn⟩ := List.getElem?_of_mem hst
    exact (hOK n st hn).1
  | remaining + 1, t, bound, ids, students, cat, rng, trace, out => by
    intro h hbd hnd hlt hOK
    unfold runSimAux at h
    dsimp only at h
    split at h
    · cases h
    · next ids' students' cat' rng' hterm =>
      unfold termLoop at hterm
      have hperm := hshuf t (ids ++ List.range' (t * rate) rate)
      have hnd1 : (shuf t (ids ++ List.range' (t * rate) rate)).Nodup := by
        rw [hperm.nodup_iff]
        refine List.Nodup.append hnd (List.nodup_range' _ _) ?_
        rw [List.disjoint_left]
        intro a ha hb
        have h1 := hlt a ha
        have h2 := (List.mem_range'_1.mp hb).1
        omega
      have hOK1 : rosterOK bound (students ++ (List.range' (t * rate) rate).map
          (fun i => Student.init i 0)) := by
        intro sid st hsid
        rw [List.getElem?_append] at hsid
        split at hsid
        · exact hOK sid st hsid
        · rw [List.getElem?_map] at hsid
          cases hg : (List.range' (t * rate) rate)[sid - students.length]? with
          | none =>
            rw [hg] at hsid
            cases hsid
          | some i =>
            rw [hg] at hsid
            injection hsid with hsid
            rw [← hsid]
            refine ⟨rfl, ?_, Nat.zero_le _⟩
            simp [Student.init]
      have hOK' : rosterOK (bound + 1) students' := by
        intro sid st' hsid
        obtain ⟨st, hst, hrel⟩ :=
          termLoopAux_student_bound _ _ _ _ _ _ (ids', students', cat', rng')
            hterm hnd1 sid st' hsid
        obtain ⟨hg, hc, hs⟩ := hOK1 sid st hst
        rcases hrel with rfl | ⟨h1, h2, h3⟩
        · exact ⟨hg, hc, Nat.le_succ_of_le hs⟩
        · refine ⟨?_, by omega, by omega⟩
          cases hgr : st'.graduated
          · rfl
          · rcases h3 hgr with hg' | hcard
            · rw [hg'] at hg
              cases hg
            · omega
      have hids := termLoopAux_ids _ _ _ _ _ _ (ids', students', cat', rng') hterm
      refine runSimAux_ungraduated hshuf remaining (t + 1) (bound + 1) ids' students'
        _ rng' _ out h (by omega) (hids.2 hnd1) ?_ hOK'
      intro i hi
      have hmem := hperm.mem_iff.mp (hids.1 i hi)
      rw [Nat.succ_mul]
      rcases List.mem_append.mp hmem with hm | hm
      · have := hlt i hm
        omega
      · have := List.mem_range'_1.mp hm
        omega

/-- Claim C7: a run with the "no-restrictions" policy, coreCapacity 350,
electCapacity 50 and duration 3 (the claim's enrollmentRate 10 is the
instance `rate := 10`; the proof is uniform in the rate) returns a roster
in which every student has `graduated = false`, for every shuffle oracle
that permutes (as `random.shuffle` does) and all random draws: at most two
courses per term for three terms cannot reach the ten-course threshold. -/
theorem spec_c7 (rate : Nat) (shuf : Nat → List Nat → List Nat) (rng : Rng)
    (out : List Student × List Catalog)
    (hshuf : ∀ t l, (shuf t l).Perm l)
    (h : run_sim noRestrictionsPolicy (mkCatalog 350 50) rate 3 shuf rng = some out) :
    ∀ st ∈ out.1, st.graduated = false := by
  unfold run_sim at h
  refine runSimAux_ungraduated hshuf 3 0 0 [] [] _ rng [] out h (by omega)
    List.nodup_nil (by intro i hi; cases hi) ?_
  intro sid st hs
  rw [List.getElem?_nil] at hs
  cases hs

/-- Witness for C7: a concrete three-term run with rate 1 and the identity
shuffle; its first returned student is not graduated. -/
theorem spec_c7_witness :
    (((run_sim noRestrictionsPolicy (mkCatalog 350 50) 1 3 (fun _ l => l)
      ⟨[], []⟩).getD ([], [])).1.headD (Student.init 0 0)).graduated = false :=
  spec_c7 1 (fun _ l => l) ⟨[], []⟩
    ((run_sim noRestrictionsPolicy (mkCatalog 350 50) 1 3 (fun _ l => l)
      ⟨[], []⟩).getD ([], []))
    (fun _ l => List.Perm.refl l) (by decide)
    (((run_sim noRestrictionsPolicy (mkCatalog 350 50) 1 3 (fun _ l => l)
      ⟨[], []⟩).getD ([], [])).1.headD (Student.init 0 0)) (by decide)

/-- A concrete one-term run used to witness C1. -/
def c1Run : Option (List Student × List Catalog) :=
  run_sim noRestrictionsPolicy (mkCatalog 2 2) 1 1 (fun _ l => l) ⟨[], []⟩

/-- Witness for C1: in the concrete run `c1Run`, the first recorded
catalog's first entry respects its capacity, via the theorem. -/
theorem spec_c1_witness :
    c1Run = some (c1Run.getD ([], [])) ∧
    (c1Run.getD ([], [])).2.headD [] ∈ (c1Run.getD ([], [])).2 ∧
    ((c1Run.getD ([], [])).2.headD []).headD ("", ⟨"", 0, 0⟩) ∈
      (c1Run.getD ([], [])).2.headD [] ∧
    (((c1Run.getD ([], [])).2.headD []).headD ("", ⟨"", 0, 0⟩)).2.numEnrolled ≤
      (((c1Run.getD ([], [])).2.headD []).headD ("", ⟨"", 0, 0⟩)).2.capacity :=
  ⟨by decide, by decide, by decide,
   spec_c1 noRestrictionsPolicy 2 2 1 1 (fun _ l => l) ⟨[], []⟩ (c1Run.getD ([], []))
     (by decide) ((c1Run.getD ([], [])).2.headD []) (by decide)
     (((c1Run.getD ([], [])).2.headD []).headD ("", ⟨"", 0, 0⟩)) (by decide)⟩
